import Mathlib

/-!
Verification of the triad-counter core (`src/lib.rs` of triad-counter-rs).

The Rust code is shallowly embedded:
* `f64` edge weights become `FVal` (a rational value, `nan`, or an infinity),
  with the IEEE comparison behaviour against `0.0` made explicit
  (`nan` compares false in both `v > 0.0` and `v < 0.0`);
* `u64` triad counters become `ℕ` (the program keeps them bounded by the
  number of candidate triples, far below 2^64 for any matrix that fits in
  memory, so wrap-around is not modelled);
* `Vec` indexing `v[i]`, which panics when out of bounds, is modelled twice:
  the plain functions read with `List.getD _ 0` (total), and the `Checked`
  variants read with `List.get?`, returning `none` exactly where Rust would
  panic.  The safety claim relates the two;
* rayon's `fold`/`reduce` over `0..n` is modelled by an explicit list of
  chunks of outer indices: each chunk is folded with the same loop body as
  the sequential path (the Rust source textually duplicates that body) and
  the per-chunk results are combined with `merge`.  `count_triads_parallel_chunked`
  itself uses the finest chunking (one chunk per row); the equivalence
  theorem covers every chunking whose concatenation is `0, …, n-1`;
* the CSV decoding done by the `csv` crate and `str::parse::<f64>` inside
  `input` are external collaborators: `input` is modelled on the already
  decoded header list and record rows (each cell being the parsed-or-`0.0`
  value produced by `field.trim().parse().unwrap_or(0.0)`).
-/

/-- Model of an `f64` edge weight: a finite rational, a NaN, or an infinity.
Only the comparisons against `0.0` matter to the program. -/
inductive FVal where
  | nan : FVal
  | posInf : FVal
  | negInf : FVal
  | fin : ℚ → FVal
deriving DecidableEq, Repr

/-- IEEE `v > 0.0` (false for NaN). -/
def FVal.gt0 : FVal → Bool
  | .nan => false
  | .posInf => true
  | .negInf => false
  | .fin q => decide (0 < q)

/-- IEEE `v < 0.0` (false for NaN). -/
def FVal.lt0 : FVal → Bool
  | .nan => false
  | .posInf => false
  | .negInf => true
  | .fin q => decide (q < 0)

/-- IEEE `v == 0.0` (false for NaN; `-0.0` and `0.0` are the single `fin 0`). -/
def FVal.eq0 : FVal → Bool
  | .fin q => decide (q = 0)
  | _ => false

/-- Results from triad counting analysis (struct `TriadCounts`, `u64` fields
modelled as `ℕ`). -/
structure TriadCounts where
  three_positive : ℕ
  two_positive : ℕ
  one_positive : ℕ
  zero_positive : ℕ
deriving DecidableEq, Repr

/-- `TriadCounts::default()`: the all-zero value. -/
def tri0 : TriadCounts := ⟨0, 0, 0, 0⟩

/-- `TriadCounts::stable`: three_positive + one_positive. -/
def TriadCounts.stable (c : TriadCounts) : ℕ :=
  c.three_positive + c.one_positive

/-- `TriadCounts::unstable`: two_positive + zero_positive. -/
def TriadCounts.unstable (c : TriadCounts) : ℕ :=
  c.two_positive + c.zero_positive

/-- `TriadCounts::total`: sum of the four buckets. -/
def TriadCounts.total (c : TriadCounts) : ℕ :=
  c.three_positive + c.two_positive + c.one_positive + c.zero_positive

/-- `TriadCounts::merge`: bucketwise addition (Rust mutates `self`; the model
returns the updated value). -/
def TriadCounts.merge (c other : TriadCounts) : TriadCounts :=
  { three_positive := c.three_positive + other.three_positive
    two_positive := c.two_positive + other.two_positive
    one_positive := c.one_positive + other.one_positive
    zero_positive := c.zero_positive + other.zero_positive }

/-- Struct `TriadCounterPlugin`: flat row-major adjacency matrix, derived
sign matrix, node count, labels and the stored counts. -/
structure TriadCounterPlugin where
  adj : List FVal
  signs : List Int
  n : ℕ
  labels : List String
  counts : TriadCounts

/-- `TriadCounterPlugin::new`. -/
def TriadCounterPlugin.new : TriadCounterPlugin :=
  ⟨[], [], 0, [], tri0⟩

/-- `TriadCounterPlugin::to_sign`: `1` if `v > 0.0`, `-1` if `v < 0.0`,
else `0` (so NaN maps to `0`). -/
def to_sign (v : FVal) : Int :=
  if v.gt0 then 1 else if v.lt0 then -1 else 0

/-- `TriadCounterPlugin::compute_signs`: `signs = adj.iter().map(to_sign)`. -/
def TriadCounterPlugin.compute_signs (p : TriadCounterPlugin) : TriadCounterPlugin :=
  { p with signs := p.adj.map to_sign }

/-- One row-write pass of `input`: for record `rec` at row `row_idx`, each
field after the first is written at `row_idx * n + col_idx` when
`col_idx < n` (cells are the already parsed-or-`0.0` values; an index at or
beyond `n * n` would panic in Rust, the model leaves the buffer unchanged). -/
def inputWriteRow (n row_idx : ℕ) (adj : List FVal) (rec : List FVal) : List FVal :=
  ((rec.drop 1).enum).foldl
    (fun a cv => if cv.1 < n then a.set (row_idx * n + cv.1) cv.2 else a) adj

/-- `TriadCounterPlugin::input`, modelled on the decoded CSV content:
`headers` is the header record and `records` the data records, each cell
already parsed (`field.trim().parse().unwrap_or(0.0)`).  Labels are the
headers after the first, `n = labels.len()`, the matrix is filled row by
row, the diagonal is zeroed, and the signs are recomputed.  The stored
`counts` field is not touched, exactly as in the source. -/
def TriadCounterPlugin.input (p : TriadCounterPlugin)
    (headers : List String) (records : List (List FVal)) : TriadCounterPlugin :=
  let labels := headers.drop 1
  let n := labels.length
  let adj0 := List.replicate (n * n) (FVal.fin 0)
  let adj1 := (records.enum).foldl
    (fun a rr => inputWriteRow n rr.1 a rr.2) adj0
  let adj2 := (List.range n).foldl (fun a i => a.set (i * n + i) (FVal.fin 0)) adj1
  { adj := adj2
    signs := adj2.map to_sign
    n := n
    labels := labels
    counts := p.counts }

/-- Sign read `self.signs[idx]` as a total function (out of range reads `0`;
the `Checked` variants model the panic instead). -/
def sgnAt (s : List Int) (idx : ℕ) : Int := s.getD idx 0

/-- `(ij > 0) as u8 + (ik > 0) as u8 + (jk > 0) as u8`. -/
def posCount (ij ik jk : Int) : ℕ :=
  (if 0 < ij then 1 else 0) + (if 0 < ik then 1 else 0) + (if 0 < jk then 1 else 0)

/-- The `match pos_count` statement: bump the bucket selected by `p`
(the default arm leaves the counts unchanged). -/
def bump (c : TriadCounts) (p : ℕ) : TriadCounts :=
  match p with
  | 3 => { c with three_positive := c.three_positive + 1 }
  | 2 => { c with two_positive := c.two_positive + 1 }
  | 1 => { c with one_positive := c.one_positive + 1 }
  | 0 => { c with zero_positive := c.zero_positive + 1 }
  | _ => c

/-- Innermost loop `for k in (j + 1)..n` shared verbatim by the sequential
and the parallel body: skip the triple when `ik` or `jk` is zero, otherwise
bump the bucket of `pos_count`. -/
def innerK (s : List Int) (n i j : ℕ) (ij : Int) (acc : TriadCounts) : TriadCounts :=
  (List.range' (j + 1) (n - (j + 1))).foldl
    (fun c k =>
      let ik := sgnAt s (i * n + k)
      let jk := sgnAt s (j * n + k)
      if ik = 0 ∨ jk = 0 then c else bump c (posCount ij ik jk)) acc

/-- Middle loop `for j in (i + 1)..n`: read `ij` and prune the whole
`k`-loop when it is zero. -/
def rowStep (s : List Int) (n : ℕ) (acc : TriadCounts) (i : ℕ) : TriadCounts :=
  (List.range' (i + 1) (n - (i + 1))).foldl
    (fun c j =>
      let ij := sgnAt s (i * n + j)
      if ij = 0 then c else innerK s n i j ij c) acc

/-- `TriadCounterPlugin::count_triads_sequential`. -/
def count_triads_sequential (p : TriadCounterPlugin) : TriadCounts :=
  (List.range p.n).foldl (rowStep p.signs p.n) tri0

/-- One rayon `fold` accumulator: the rows of `chunk` processed with the same
body as the sequential path, starting from `TriadCounts::default()`. -/
def chunkCounts (s : List Int) (n : ℕ) (chunk : List ℕ) : TriadCounts :=
  chunk.foldl (rowStep s n) tri0

/-- The rayon `fold … .reduce(default, merge)` pipeline for a given list of
chunks of outer indices: per-chunk counts merged in order. -/
def parChunksCounts (s : List Int) (n : ℕ) (chunks : List (List ℕ)) : TriadCounts :=
  (chunks.map (chunkCounts s n)).foldl TriadCounts.merge tri0

/-- `TriadCounterPlugin::count_triads_parallel_chunked`, at the finest
chunking (one chunk per outer index); `parChunks_eq_sequential` shows the
result is the same for every chunking of `0, …, n-1`. -/
def count_triads_parallel_chunked (p : TriadCounterPlugin) : TriadCounts :=
  parChunksCounts p.signs p.n ((List.range p.n).map (fun i => [i]))

/-- `TriadCounterPlugin::count_triads_optimized`: parallel iff `n >= 500`. -/
def count_triads_optimized (p : TriadCounterPlugin) : TriadCounts :=
  if 500 ≤ p.n then count_triads_parallel_chunked p
  else count_triads_sequential p

/-- `TriadCounterPlugin::run`: recompute signs when empty, then store the
counts of `count_triads_optimized`. -/
def TriadCounterPlugin.run (p : TriadCounterPlugin) : TriadCounterPlugin :=
  let q := if p.signs.isEmpty then p.compute_signs else p
  { q with counts := count_triads_optimized q }

/-- One row write of `from_matrix`: `adj[i * n + j] = row[j]` for `i ≠ j`
(an in-range write, even one caused by a too-long row, lands exactly where
Rust puts it; an out-of-range write, which panics in Rust, leaves the model
buffer unchanged). -/
def fromMatrixWriteRow (n i : ℕ) (adj : List FVal) (row : List FVal) : List FVal :=
  (row.enum).foldl
    (fun a jv => if i ≠ jv.1 then a.set (i * n + jv.1) jv.2 else a) adj

/-- `TriadCounterPlugin::from_matrix`. -/
def from_matrix (matrix : List (List FVal)) : TriadCounterPlugin :=
  let n := matrix.length
  let adj := (matrix.enum).foldl
    (fun a ir => fromMatrixWriteRow n ir.1 a ir.2)
    (List.replicate (n * n) (FVal.fin 0))
  { adj := adj
    signs := adj.map to_sign
    n := n
    labels := (List.range n).map (fun i => "Node" ++ toString i)
    counts := tri0 }

/-- Checked innermost loop: every `signs[_]` read through `List.get?`, so the
result is `none` exactly when Rust would panic on an out-of-bounds index. -/
def innerKChecked (s : List Int) (n i j : ℕ) (ij : Int) (acc : TriadCounts) :
    Option TriadCounts :=
  (List.range' (j + 1) (n - (j + 1))).foldlM
    (fun c k => do
      let ik ← s[i * n + k]?
      let jk ← s[j * n + k]?
      pure (if ik = 0 ∨ jk = 0 then c else bump c (posCount ij ik jk))) acc

/-- Checked middle loop. -/
def rowStepChecked (s : List Int) (n : ℕ) (acc : TriadCounts) (i : ℕ) :
    Option TriadCounts :=
  (List.range' (i + 1) (n - (i + 1))).foldlM
    (fun c j => do
      let ij ← s[i * n + j]?
      if ij = 0 then pure c else innerKChecked s n i j ij c) acc

/-- Checked sequential counter. -/
def count_triads_sequential_checked (p : TriadCounterPlugin) : Option TriadCounts :=
  (List.range p.n).foldlM (rowStepChecked p.signs p.n) tri0

/-- Checked parallel counter at the finest chunking. -/
def count_triads_parallel_chunked_checked (p : TriadCounterPlugin) : Option TriadCounts :=
  ((List.range p.n).map (fun i => [i])).foldlM
    (fun acc chunk => do
      let c ← chunk.foldlM (rowStepChecked p.signs p.n) tri0
      pure (acc.merge c)) tri0

/-- Per-triple contribution of the loop body: zero when any of the three
read signs `(i,j)`, `(i,k)`, `(j,k)` is zero, otherwise a single count in
the bucket of `pos_count`. -/
def unitBucket (p : ℕ) : TriadCounts :=
  match p with
  | 3 => ⟨1, 0, 0, 0⟩
  | 2 => ⟨0, 1, 0, 0⟩
  | 1 => ⟨0, 0, 1, 0⟩
  | 0 => ⟨0, 0, 0, 1⟩
  | _ => tri0

/-- The list of index triples `(i, j, k)` with `i < j < k < n`, in exactly
the order the sequential loops visit them. -/
def triples (n : ℕ) : List (ℕ × ℕ × ℕ) :=
  (List.range n).flatMap (fun i =>
    (List.range' (i + 1) (n - (i + 1))).flatMap (fun j =>
      (List.range' (j + 1) (n - (j + 1))).map (fun k => (i, j, k))))

/-- Contribution of one triple to the counts. -/
def tdelta (s : List Int) (n : ℕ) (t : ℕ × ℕ × ℕ) : TriadCounts :=
  let ij := sgnAt s (t.1 * n + t.2.1)
  let ik := sgnAt s (t.1 * n + t.2.2)
  let jk := sgnAt s (t.2.1 * n + t.2.2)
  if ij = 0 then tri0
  else if ik = 0 ∨ jk = 0 then tri0
  else unitBucket (posCount ij ik jk)

/-- Merge a list of counts, starting from the all-zero value. -/
def listSum (l : List TriadCounts) : TriadCounts :=
  l.foldl TriadCounts.merge tri0

/-- The ordered pair `(a, b)` is one of the three index pairs the loop body
reads for the triple `t`. -/
def pairIn (a b : ℕ) (t : ℕ × ℕ × ℕ) : Prop :=
  (t.1 = a ∧ t.2.1 = b) ∨ (t.1 = a ∧ t.2.2 = b) ∨ (t.2.1 = a ∧ t.2.2 = b)

instance (a b : ℕ) (t : ℕ × ℕ × ℕ) : Decidable (pairIn a b t) := by
  unfold pairIn
  infer_instance

/-- Reference bucket, written from the specification: the number of triples
of distinct indices `i < j < k < n` whose three pairwise signs are all
non-zero and of which exactly `p` are strictly positive. -/
def refBucket (s : List Int) (n p : ℕ) : ℕ :=
  ((Finset.range n ×ˢ Finset.range n ×ˢ Finset.range n).filter
    (fun t => t.1 < t.2.1 ∧ t.2.1 < t.2.2 ∧
      sgnAt s (t.1 * n + t.2.1) ≠ 0 ∧
      sgnAt s (t.1 * n + t.2.2) ≠ 0 ∧
      sgnAt s (t.2.1 * n + t.2.2) ≠ 0 ∧
      posCount (sgnAt s (t.1 * n + t.2.1)) (sgnAt s (t.1 * n + t.2.2))
        (sgnAt s (t.2.1 * n + t.2.2)) = p)).card

/-- Reference counts, written from the specification. -/
def triadCountsRef (s : List Int) (n : ℕ) : TriadCounts :=
  ⟨refBucket s n 3, refBucket s n 2, refBucket s n 1, refBucket s n 0⟩

/-- Edge condition written from the specification: the three pairwise signs
read for the triple `t` are all non-zero and exactly `p` of them are
strictly positive. -/
def triadFull (s : List Int) (n p : ℕ) (t : ℕ × ℕ × ℕ) : Prop :=
  sgnAt s (t.1 * n + t.2.1) ≠ 0 ∧ sgnAt s (t.1 * n + t.2.2) ≠ 0 ∧
  sgnAt s (t.2.1 * n + t.2.2) ≠ 0 ∧
  posCount (sgnAt s (t.1 * n + t.2.1)) (sgnAt s (t.1 * n + t.2.2))
    (sgnAt s (t.2.1 * n + t.2.2)) = p

instance (s : List Int) (n p : ℕ) (t : ℕ × ℕ × ℕ) :
    Decidable (triadFull s n p t) := by
  unfold triadFull
  infer_instance

/-- The three pairwise signs read for the triple `t` are all non-zero. -/
def triadNZ (s : List Int) (n : ℕ) (t : ℕ × ℕ × ℕ) : Prop :=
  sgnAt s (t.1 * n + t.2.1) ≠ 0 ∧ sgnAt s (t.1 * n + t.2.2) ≠ 0 ∧
  sgnAt s (t.2.1 * n + t.2.2) ≠ 0

instance (s : List Int) (n : ℕ) (t : ℕ × ℕ × ℕ) :
    Decidable (triadNZ s n t) := by
  unfold triadNZ
  infer_instance

/-- Contribution of the innermost body at a fixed `(i, j)` with sign `ij`. -/
def kDelta (s : List Int) (n i j : ℕ) (ij : Int) (k : ℕ) : TriadCounts :=
  let ik := sgnAt s (i * n + k)
  let jk := sgnAt s (j * n + k)
  if ik = 0 ∨ jk = 0 then tri0 else unitBucket (posCount ij ik jk)

/-- Contribution of the middle body at a fixed `i`. -/
def jDelta (s : List Int) (n i : ℕ) (j : ℕ) : TriadCounts :=
  let ij := sgnAt s (i * n + j)
  if ij = 0 then tri0
  else listSum ((List.range' (j + 1) (n - (j + 1))).map (kDelta s n i j ij))

/-! Algebraic facts about `merge`. -/

lemma merge_comm (a b : TriadCounts) : a.merge b = b.merge a := by
  simp [TriadCounts.merge, Nat.add_comm]

lemma merge_assoc (a b c : TriadCounts) :
    (a.merge b).merge c = a.merge (b.merge c) := by
  simp [TriadCounts.merge, Nat.add_assoc]

lemma merge_tri0 (a : TriadCounts) : a.merge tri0 = a := by
  simp [TriadCounts.merge, tri0]

lemma tri0_merge (a : TriadCounts) : tri0.merge a = a := by
  simp [TriadCounts.merge, tri0]

/-! Folding with `merge` and `listSum`. -/

lemma foldl_merge_shift (l : List TriadCounts) :
    ∀ a : TriadCounts, l.foldl TriadCounts.merge a = a.merge (listSum l) := by
  induction l with
  | nil => intro a; simp [listSum, merge_tri0]
  | cons c l ih =>
    intro a
    simp only [List.foldl_cons, listSum] at ih ⊢
    rw [ih (a.merge c), ih (tri0.merge c), tri0_merge, merge_assoc]

lemma listSum_cons (c : TriadCounts) (l : List TriadCounts) :
    listSum (c :: l) = c.merge (listSum l) := by
  simp only [listSum, List.foldl_cons]
  rw [foldl_merge_shift, tri0_merge]
  rfl

lemma listSum_append (l₁ l₂ : List TriadCounts) :
    listSum (l₁ ++ l₂) = (listSum l₁).merge (listSum l₂) := by
  simp only [listSum, List.foldl_append]
  rw [foldl_merge_shift]
  rfl

/-- A fold whose step adds a per-element contribution is the merge of the
start value with the sum of the contributions. -/
lemma foldl_hom_merge {α : Type} (step : TriadCounts → α → TriadCounts)
    (g : α → TriadCounts) (hstep : ∀ c x, step c x = c.merge (g x)) :
    ∀ (l : List α) (a : TriadCounts),
      l.foldl step a = a.merge (listSum (l.map g)) := by
  intro l
  induction l with
  | nil => intro a; simp [listSum, merge_tri0]
  | cons x l ih =>
    intro a
    simp only [List.foldl_cons, List.map_cons, listSum_cons]
    rw [hstep, ih, merge_assoc]

lemma listSum_map_flatMap {α β : Type} (l : List α) (f : α → List β)
    (g : β → TriadCounts) :
    listSum ((l.flatMap f).map g) =
      listSum (l.map (fun x => listSum ((f x).map g))) := by
  induction l with
  | nil => simp
  | cons x l ih =>
    simp only [List.flatMap_cons, List.map_append, List.map_cons, listSum_append,
      listSum_cons, ih]

lemma listSum_map_tri0 {α : Type} (l : List α) (f : α → TriadCounts)
    (h : ∀ x ∈ l, f x = tri0) : listSum (l.map f) = tri0 := by
  induction l with
  | nil => simp [listSum]
  | cons x l ih =>
    simp only [List.map_cons, listSum_cons]
    rw [h x (by simp), ih (fun y hy => h y (by simp [hy])), tri0_merge]

/-! The loop bodies as per-element contributions. -/

lemma bump_eq_merge (c : TriadCounts) (p : ℕ) :
    bump c p = c.merge (unitBucket p) := by
  rcases p with _ | _ | _ | _ | p <;>
    simp [bump, unitBucket, TriadCounts.merge, tri0]

lemma innerK_eq (s : List Int) (n i j : ℕ) (ij : Int) (acc : TriadCounts) :
    innerK s n i j ij acc =
      acc.merge (listSum ((List.range' (j + 1) (n - (j + 1))).map
        (kDelta s n i j ij))) := by
  refine foldl_hom_merge _ _ (fun c k => ?_) _ acc
  simp only [kDelta]
  by_cases h : sgnAt s (i * n + k) = 0 ∨ sgnAt s (j * n + k) = 0
  · simp [h, merge_tri0]
  · simp [h, bump_eq_merge]

lemma rowStep_eq (s : List Int) (n : ℕ) (acc : TriadCounts) (i : ℕ) :
    rowStep s n acc i =
      acc.merge (listSum ((List.range' (i + 1) (n - (i + 1))).map
        (jDelta s n i))) := by
  refine foldl_hom_merge _ _ (fun c j => ?_) _ acc
  simp only [jDelta]
  by_cases h : sgnAt s (i * n + j) = 0
  · simp [h, merge_tri0]
  · simp [h, innerK_eq]

lemma rowStep_shift (s : List Int) (n : ℕ) (acc : TriadCounts) (i : ℕ) :
    rowStep s n acc i = acc.merge (rowStep s n tri0 i) := by
  rw [rowStep_eq, rowStep_eq, tri0_merge]

lemma count_triads_sequential_eq_listSum (p : TriadCounterPlugin) :
    count_triads_sequential p =
      listSum ((List.range p.n).map (rowStep p.signs p.n tri0)) := by
  unfold count_triads_sequential
  rw [foldl_hom_merge (rowStep p.signs p.n) (rowStep p.signs p.n tri0)
    (rowStep_shift p.signs p.n) (List.range p.n) tri0, tri0_merge]

lemma chunkCounts_eq_listSum (s : List Int) (n : ℕ) (chunk : List ℕ) :
    chunkCounts s n chunk = listSum (chunk.map (rowStep s n tri0)) := by
  unfold chunkCounts
  rw [foldl_hom_merge (rowStep s n) (rowStep s n tri0)
    (rowStep_shift s n) chunk tri0, tri0_merge]

lemma parChunksCounts_eq_listSum (s : List Int) (n : ℕ)
    (chunks : List (List ℕ)) :
    parChunksCounts s n chunks = listSum (chunks.map (chunkCounts s n)) := rfl

lemma listSum_map_flatten {α : Type} (ll : List (List α)) (g : α → TriadCounts) :
    listSum (ll.flatten.map g) = listSum (ll.map (fun c => listSum (c.map g))) := by
  induction ll with
  | nil => simp
  | cons c ll ih =>
    simp only [List.flatten_cons, List.map_append, List.map_cons, listSum_append,
      listSum_cons, ih]

lemma flatten_singletons {α : Type} (l : List α) :
    (l.map (fun x => [x])).flatten = l := by
  induction l with
  | nil => simp
  | cons x l ih => simp [ih]

/-- Any chunking of the outer index list yields the sequential result. -/
lemma parChunks_eq_sequential (p : TriadCounterPlugin) (chunks : List (List ℕ))
    (h : chunks.flatten = List.range p.n) :
    parChunksCounts p.signs p.n chunks = count_triads_sequential p := by
  rw [parChunksCounts_eq_listSum, count_triads_sequential_eq_listSum, ← h,
    listSum_map_flatten]
  congr 1
  exact List.map_congr_left (fun c _ => chunkCounts_eq_listSum _ _ c)

lemma parallel_chunked_eq_sequential (p : TriadCounterPlugin) :
    count_triads_parallel_chunked p = count_triads_sequential p :=
  parChunks_eq_sequential p _ (flatten_singletons _)

/-- C1: for every plugin state, the chunked parallel counter — under any
chunking whose concatenation is the outer index list `0, …, n-1`, and in
particular as the function `count_triads_parallel_chunked` — returns
bucket for bucket the same `TriadCounts` as `count_triads_sequential`. -/
theorem c1_parallel_chunked_eq_sequential (p : TriadCounterPlugin)
    (chunks : List (List ℕ)) (h : chunks.flatten = List.range p.n) :
    parChunksCounts p.signs p.n chunks = count_triads_sequential p ∧
    count_triads_parallel_chunked p = count_triads_sequential p :=
  ⟨parChunks_eq_sequential p chunks h, parallel_chunked_eq_sequential p⟩

theorem c1_parallel_chunked_eq_sequential_witness :
    ([[0], [1], [2]] : List (List ℕ)).flatten = List.range 3 ∧
    parChunksCounts [0, 1, 1, 1, 0, 1, 1, 1, 0] 3 [[0], [1], [2]] =
      count_triads_sequential ⟨[], [0, 1, 1, 1, 0, 1, 1, 1, 0], 3, [], tri0⟩ :=
  ⟨by decide,
    (c1_parallel_chunked_eq_sequential
      ⟨[], [0, 1, 1, 1, 0, 1, 1, 1, 0], 3, [], tri0⟩
      [[0], [1], [2]] (by decide)).1⟩

/-- C4: `TriadCounts` is a commutative monoid under `merge`: commutative,
associative, and the all-zero value is a two-sided identity. -/
theorem c4_merge_commutative_monoid (a b c : TriadCounts) :
    a.merge b = b.merge a ∧
    (a.merge b).merge c = a.merge (b.merge c) ∧
    a.merge tri0 = a ∧ tri0.merge a = a :=
  ⟨merge_comm a b, merge_assoc a b c, merge_tri0 a, tri0_merge a⟩

/-! The sequential counter as a sum of per-triple contributions. -/

lemma jDelta_eq_tdelta (s : List Int) (n i j : ℕ) :
    jDelta s n i j =
      listSum ((List.range' (j + 1) (n - (j + 1))).map
        (fun k => tdelta s n (i, j, k))) := by
  unfold jDelta
  by_cases h : sgnAt s (i * n + j) = 0
  · rw [if_pos h, eq_comm]
    exact listSum_map_tri0 _ _ (fun k _ => by simp [tdelta, h])
  · rw [if_neg h]
    congr 1
    exact List.map_congr_left (fun k _ => by simp [kDelta, tdelta, h])

lemma seq_eq_listSum_tdelta (p : TriadCounterPlugin) :
    count_triads_sequential p =
      listSum ((triples p.n).map (tdelta p.signs p.n)) := by
  rw [count_triads_sequential_eq_listSum]
  unfold triples
  rw [listSum_map_flatMap]
  congr 1
  refine List.map_congr_left (fun i _ => ?_)
  rw [rowStep_eq, tri0_merge, listSum_map_flatMap]
  congr 1
  refine List.map_congr_left (fun j _ => ?_)
  rw [List.map_map, jDelta_eq_tdelta]
  rfl

lemma mem_triples (n : ℕ) (t : ℕ × ℕ × ℕ) :
    t ∈ triples n ↔ t.1 < t.2.1 ∧ t.2.1 < t.2.2 ∧ t.2.2 < n := by
  obtain ⟨i, j, k⟩ := t
  simp only [triples, List.mem_flatMap, List.mem_map, List.mem_range,
    List.mem_range'_1, Prod.mk.injEq]
  constructor
  · rintro ⟨a, ha, b, hb, c, hc, rfl, rfl, rfl⟩
    omega
  · rintro ⟨hij, hjk, hkn⟩
    exact ⟨i, by omega, j, by omega, k, by omega, rfl, rfl, rfl⟩

lemma nodup_triples (n : ℕ) : (triples n).Nodup := by
  unfold triples
  rw [List.nodup_flatMap]
  constructor
  · intro i _
    rw [List.nodup_flatMap]
    constructor
    · intro j _
      exact (List.nodup_range' _ _).map
        (fun a b h => by simpa using congrArg (fun t => t.2.2) h)
    · refine (List.nodup_range' _ _).imp (fun hab x hxa hxb => ?_)
      simp only [List.mem_map] at hxa hxb
      obtain ⟨k₁, _, rfl⟩ := hxa
      obtain ⟨k₂, _, h⟩ := hxb
      exact hab (by simpa using congrArg (fun t => t.2.1) h.symm)
  · refine (List.nodup_range n).imp (fun hab x hxa hxb => ?_)
    simp only [List.mem_flatMap, List.mem_map] at hxa hxb
    obtain ⟨j₁, _, k₁, _, rfl⟩ := hxa
    obtain ⟨j₂, _, k₂, _, h⟩ := hxb
    exact hab (by simpa using congrArg (fun t => t.1) h.symm)

/-! Componentwise view of `listSum` and the per-triple contribution. -/

lemma listSum_proj (f : TriadCounts → ℕ) (hf0 : f tri0 = 0)
    (hfadd : ∀ a b : TriadCounts, f (a.merge b) = f a + f b) :
    ∀ l : List TriadCounts, f (listSum l) = (l.map f).sum := by
  intro l
  induction l with
  | nil => simpa [listSum]
  | cons c l ih => rw [listSum_cons, hfadd, List.map_cons, List.sum_cons, ih]

lemma unitBucket_three (p : ℕ) :
    (unitBucket p).three_positive = if p = 3 then 1 else 0 := by
  rcases p with _ | _ | _ | _ | p <;> simp [unitBucket, tri0]

lemma unitBucket_two (p : ℕ) :
    (unitBucket p).two_positive = if p = 2 then 1 else 0 := by
  rcases p with _ | _ | _ | _ | p <;> simp [unitBucket, tri0]

lemma unitBucket_one (p : ℕ) :
    (unitBucket p).one_positive = if p = 1 then 1 else 0 := by
  rcases p with _ | _ | _ | _ | p <;> simp [unitBucket, tri0]

lemma unitBucket_zero (p : ℕ) :
    (unitBucket p).zero_positive = if p = 0 then 1 else 0 := by
  rcases p with _ | _ | _ | _ | p <;> simp [unitBucket, tri0]

lemma tdelta_bucket (s : List Int) (n : ℕ) (t : ℕ × ℕ × ℕ) (b : ℕ)
    (f : TriadCounts → ℕ) (hf0 : f tri0 = 0)
    (hfu : ∀ q, f (unitBucket q) = if q = b then 1 else 0) :
    f (tdelta s n t) = if triadFull s n b t then 1 else 0 := by
  unfold tdelta triadFull
  by_cases h1 : sgnAt s (t.1 * n + t.2.1) = 0
  · simp [h1, hf0]
  by_cases h2 : sgnAt s (t.1 * n + t.2.2) = 0
  · simp [h1, h2, hf0]
  by_cases h3 : sgnAt s (t.2.1 * n + t.2.2) = 0
  · simp [h1, h2, h3, hf0]
  · simp [h1, h2, h3, hfu]

lemma sum_map_ite {α : Type} (P : α → Prop) [DecidablePred P] :
    ∀ l : List α,
      (l.map (fun x => if P x then (1 : ℕ) else 0)).sum =
        (l.filter (fun x => decide (P x))).length := by
  intro l
  induction l with
  | nil => simp
  | cons x l ih =>
    by_cases h : P x <;> simp [h, List.filter_cons, ih, Nat.add_comm]

lemma refBucket_eq_length (s : List Int) (n p : ℕ) :
    refBucket s n p =
      ((triples n).filter (fun t => decide (triadFull s n p t))).length := by
  rw [← List.toFinset_card_of_nodup ((nodup_triples n).filter _),
    List.toFinset_filter]
  unfold refBucket
  congr 1
  ext t
  obtain ⟨i, j, k⟩ := t
  simp only [Finset.mem_filter, Finset.mem_product, Finset.mem_range,
    List.mem_toFinset, mem_triples, decide_eq_true_eq, triadFull]
  constructor
  · rintro ⟨⟨hi, hj, hk⟩, hij, hjk, rest⟩
    exact ⟨⟨hij, hjk, hk⟩, rest⟩
  · rintro ⟨⟨hij, hjk, hk⟩, rest⟩
    exact ⟨⟨by omega, by omega, hk⟩, hij, hjk, rest⟩

lemma triadCounts_ext (a b : TriadCounts)
    (h3 : a.three_positive = b.three_positive)
    (h2 : a.two_positive = b.two_positive)
    (h1 : a.one_positive = b.one_positive)
    (h0 : a.zero_positive = b.zero_positive) : a = b := by
  cases a
  cases b
  simp_all

lemma seq_component (p : TriadCounterPlugin) (b : ℕ) (f : TriadCounts → ℕ)
    (hf0 : f tri0 = 0) (hfadd : ∀ a c : TriadCounts, f (a.merge c) = f a + f c)
    (hfu : ∀ q, f (unitBucket q) = if q = b then 1 else 0) :
    f (count_triads_sequential p) = refBucket p.signs p.n b := by
  have h1 : (triples p.n).map (f ∘ tdelta p.signs p.n) =
      (triples p.n).map (fun t => if triadFull p.signs p.n b t then 1 else 0) :=
    List.map_congr_left (fun t _ => tdelta_bucket p.signs p.n t b f hf0 hfu)
  rw [seq_eq_listSum_tdelta, listSum_proj f hf0 hfadd, List.map_map, h1,
    sum_map_ite, refBucket_eq_length]

/-- C2: the sequential counter equals the reference definition: every triple
`i < j < k < n` whose three read pairwise signs are non-zero is counted in
exactly one bucket, the one selected by the number of strictly positive
signs among the three, and triples with a zero sign are counted nowhere. -/
theorem c2_sequential_matches_reference (p : TriadCounterPlugin) :
    count_triads_sequential p = triadCountsRef p.signs p.n := by
  refine triadCounts_ext _ _ ?_ ?_ ?_ ?_
  · exact seq_component p 3 (fun c => c.three_positive) rfl
      (fun a c => rfl) unitBucket_three
  · exact seq_component p 2 (fun c => c.two_positive) rfl
      (fun a c => rfl) unitBucket_two
  · exact seq_component p 1 (fun c => c.one_positive) rfl
      (fun a c => rfl) unitBucket_one
  · exact seq_component p 0 (fun c => c.zero_positive) rfl
      (fun a c => rfl) unitBucket_zero

/-! Total count: bound and the complete-graph characterisation. -/

lemma total_tri0 : tri0.total = 0 := rfl

lemma total_merge (a b : TriadCounts) : (a.merge b).total = a.total + b.total := by
  simp only [TriadCounts.total, TriadCounts.merge]
  omega

lemma posCount_le_three (ij ik jk : Int) : posCount ij ik jk ≤ 3 := by
  unfold posCount
  split_ifs <;> omega

lemma total_unitBucket_of_le (q : ℕ) (h : q ≤ 3) : (unitBucket q).total = 1 := by
  rcases q with _ | _ | _ | _ | q
  · rfl
  · rfl
  · rfl
  · rfl
  · omega

lemma tdelta_total (s : List Int) (n : ℕ) (t : ℕ × ℕ × ℕ) :
    (tdelta s n t).total = if triadNZ s n t then 1 else 0 := by
  unfold tdelta triadNZ
  by_cases h1 : sgnAt s (t.1 * n + t.2.1) = 0
  · simp [h1, total_tri0]
  by_cases h2 : sgnAt s (t.1 * n + t.2.2) = 0
  · simp [h1, h2, total_tri0]
  by_cases h3 : sgnAt s (t.2.1 * n + t.2.2) = 0
  · simp [h1, h2, h3, total_tri0]
  · simp [h1, h2, h3, total_unitBucket_of_le _ (posCount_le_three _ _ _)]

lemma sum_map_ite_le {α : Type} (P : α → Prop) [DecidablePred P] :
    ∀ l : List α,
      (l.map (fun x => if P x then (1 : ℕ) else 0)).sum ≤ l.length ∧
      ((l.map (fun x => if P x then (1 : ℕ) else 0)).sum = l.length ↔
        ∀ x ∈ l, P x) := by
  intro l
  induction l with
  | nil => simp
  | cons x l ih =>
    obtain ⟨ihle, iheq⟩ := ih
    by_cases h : P x
    · simp only [List.map_cons, List.sum_cons, List.length_cons, if_pos h,
        List.forall_mem_cons]
      constructor
      · omega
      · constructor
        · intro heq
          exact ⟨h, iheq.mp (by omega)⟩
        · rintro ⟨-, hall⟩
          have := iheq.mpr hall
          omega
    · simp only [List.map_cons, List.sum_cons, List.length_cons, if_neg h,
        List.forall_mem_cons]
      constructor
      · omega
      · constructor
        · intro heq
          omega
        · rintro ⟨hx, -⟩
          exact absurd hx h

lemma list_range_map_sum (f : ℕ → ℕ) :
    ∀ m : ℕ, ((List.range m).map f).sum = ∑ i ∈ Finset.range m, f i := by
  intro m
  induction m with
  | zero => simp
  | succ m ih =>
    rw [List.range_succ, List.map_append, List.sum_append, ih,
      Finset.sum_range_succ]
    simp

lemma sum_range_choose (k : ℕ) :
    ∀ n : ℕ, ∑ m ∈ Finset.range n, m.choose k = n.choose (k + 1) := by
  intro n
  induction n with
  | zero => simp
  | succ n ih =>
    rw [Finset.sum_range_succ, ih, Nat.choose_succ_succ']
    omega

lemma length_triples (n : ℕ) : (triples n).length = n.choose 3 := by
  unfold triples
  rw [List.length_flatMap, list_range_map_sum]
  have hrow : ∀ i, i < n →
      ((List.range' (i + 1) (n - (i + 1))).flatMap (fun j =>
        (List.range' (j + 1) (n - (j + 1))).map (fun k => (i, j, k)))).length =
      (n - (i + 1)).choose 2 := by
    intro i _
    rw [List.length_flatMap, List.range'_eq_map_range, List.map_map,
      list_range_map_sum]
    have hs : (∑ t ∈ Finset.range (n - (i + 1)), (n - (i + 1) - 1 - t)) =
        (n - (i + 1)).choose 2 := by
      rw [Finset.sum_range_reflect (fun t => t), Finset.sum_range_id,
        Nat.choose_two_right]
    rw [← hs]
    apply Finset.sum_congr rfl
    intro t ht
    simp only [Finset.mem_range] at ht
    simp only [Function.comp_apply, List.length_map, List.length_range']
    omega
  have hs2 : (∑ m ∈ Finset.range n, (n - 1 - m).choose 2) = n.choose 3 := by
    rw [Finset.sum_range_reflect (fun m => m.choose 2), sum_range_choose]
  rw [← hs2]
  apply Finset.sum_congr rfl
  intro i hi
  simp only [Finset.mem_range] at hi
  simp only [Function.comp_apply]
  rw [hrow i hi]
  congr 1
  omega

lemma choose_three_formula (n : ℕ) : n.choose 3 = n * (n - 1) * (n - 2) / 6 := by
  rw [Nat.choose_eq_descFactorial_div_factorial]
  have h1 : n.descFactorial 3 = n * (n - 1) * (n - 2) := by
    simp [Nat.descFactorial]
    ring
  have h2 : Nat.factorial 3 = 6 := rfl
  rw [h1, h2]

lemma seq_total_eq_sum (p : TriadCounterPlugin) :
    (count_triads_sequential p).total =
      ((triples p.n).map
        (fun t => if triadNZ p.signs p.n t then (1 : ℕ) else 0)).sum := by
  rw [seq_eq_listSum_tdelta, listSum_proj TriadCounts.total total_tri0 total_merge,
    List.map_map]
  exact congrArg List.sum
    (List.map_congr_left (fun t _ => tdelta_total p.signs p.n t))

/-- C5 (amended): the total never exceeds `C(n,3) = n(n-1)(n-2)/6`, and
equality holds iff every pairwise sign the enumeration reads — the entries
`signs[i*n+j]`, `signs[i*n+k]`, `signs[j*n+k]` over the triples
`i < j < k < n`, i.e. the strict upper triangle once `n ≥ 3` — is non-zero.
The lower-triangle entries are never read, so they cannot affect equality;
the original claim quantified over every off-diagonal entry and is refuted
by `c5_total_counterexample`. -/
theorem c5_total_le_choose (p : TriadCounterPlugin) :
    (count_triads_sequential p).total ≤ p.n * (p.n - 1) * (p.n - 2) / 6 ∧
    ((count_triads_sequential p).total = p.n * (p.n - 1) * (p.n - 2) / 6 ↔
      ∀ i j k : ℕ, i < j → j < k → k < p.n →
        sgnAt p.signs (i * p.n + j) ≠ 0 ∧ sgnAt p.signs (i * p.n + k) ≠ 0 ∧
        sgnAt p.signs (j * p.n + k) ≠ 0) := by
  have hsum := sum_map_ite_le (triadNZ p.signs p.n) (triples p.n)
  have hlen : (triples p.n).length = p.n * (p.n - 1) * (p.n - 2) / 6 := by
    rw [length_triples, choose_three_formula]
  have htot := seq_total_eq_sum p
  constructor
  · rw [htot, ← hlen]
    exact hsum.1
  · rw [htot, ← hlen, hsum.2]
    constructor
    · intro hall i j k hij hjk hkn
      exact hall (i, j, k) ((mem_triples _ _).mpr ⟨hij, hjk, hkn⟩)
    · rintro hall ⟨i, j, k⟩ ht
      obtain ⟨hij, hjk, hkn⟩ := (mem_triples _ _).mp ht
      exact hall i j k hij hjk hkn

/-- C5 counterexample: for the 3-node matrix whose upper triangle is all `1`
and whose lower triangle is all `0`, the total equals `C(3,3) = 1`, yet the
off-diagonal sign at `(1,0)` is zero — so "equality iff every off-diagonal
pairwise sign is non-zero" is false as stated. -/
theorem c5_total_counterexample :
    ¬ (((count_triads_sequential (from_matrix
        [[.fin 0, .fin 1, .fin 1], [.fin 0, .fin 0, .fin 1],
         [.fin 0, .fin 0, .fin 0]])).total = 3 * (3 - 1) * (3 - 2) / 6) ↔
      (∀ i < 3, ∀ j < 3, i ≠ j →
        sgnAt (from_matrix
          [[.fin 0, .fin 1, .fin 1], [.fin 0, .fin 0, .fin 1],
           [.fin 0, .fin 0, .fin 0]]).signs (i * 3 + j) ≠ 0)) := by
  decide

/-! Strategy selector, sign derivation, and load behaviour. -/

/-- C6: `count_triads_optimized` chooses the sequential path for every state
with fewer than 500 nodes and the parallel chunked path at 500 or more. -/
theorem c6_optimized_threshold (p : TriadCounterPlugin) :
    (p.n < 500 → count_triads_optimized p = count_triads_sequential p) ∧
    (500 ≤ p.n → count_triads_optimized p = count_triads_parallel_chunked p) := by
  constructor
  · intro h
    unfold count_triads_optimized
    rw [if_neg (by omega)]
  · intro h
    unfold count_triads_optimized
    rw [if_pos h]

theorem c6_optimized_threshold_witness :
    ((TriadCounterPlugin.mk [] [] 3 [] tri0).n < 500 ∧
      count_triads_optimized (TriadCounterPlugin.mk [] [] 3 [] tri0) =
        count_triads_sequential (TriadCounterPlugin.mk [] [] 3 [] tri0)) ∧
    (500 ≤ (TriadCounterPlugin.mk [] [] 500 [] tri0).n ∧
      count_triads_optimized (TriadCounterPlugin.mk [] [] 500 [] tri0) =
        count_triads_parallel_chunked (TriadCounterPlugin.mk [] [] 500 [] tri0)) :=
  ⟨⟨by decide, (c6_optimized_threshold _).1 (by decide)⟩,
    ⟨by decide, (c6_optimized_threshold _).2 (by decide)⟩⟩

lemma getD_map_to_sign (l : List FVal) (i : ℕ) :
    (l.map to_sign).getD i 0 = to_sign (l.getD i (FVal.fin 0)) := by
  rcases Nat.lt_or_ge i l.length with h | h
  · rw [List.getD_eq_getElem _ _ (by simpa using h), List.getD_eq_getElem _ _ h,
      List.getElem_map]
  · rw [List.getD_eq_default _ _ (by simpa using h), List.getD_eq_default _ _ h]
    rfl

lemma to_sign_gt0 (v : FVal) (h : v.gt0 = true) : to_sign v = 1 := by
  unfold to_sign
  rw [if_pos h]

lemma to_sign_lt0 (v : FVal) (h : v.lt0 = true) : to_sign v = -1 := by
  cases v with
  | nan => simp [FVal.lt0] at h
  | posInf => simp [FVal.lt0] at h
  | negInf => rfl
  | fin q =>
    simp only [FVal.lt0, decide_eq_true_eq] at h
    simp [to_sign, FVal.gt0, FVal.lt0, h, not_lt.mpr (le_of_lt h)]

lemma to_sign_eq0 (v : FVal) (h : v.eq0 = true) : to_sign v = 0 := by
  cases v with
  | nan => simp [FVal.eq0] at h
  | posInf => simp [FVal.eq0] at h
  | negInf => simp [FVal.eq0] at h
  | fin q =>
    simp only [FVal.eq0, decide_eq_true_eq] at h
    simp [to_sign, FVal.gt0, FVal.lt0, h]

/-- C7: `compute_signs` maps the adjacency matrix elementwise through the
ternary sign function — `+1` where `v > 0.0`, `-1` where `v < 0.0`, `0`
where `v == 0.0` — and the sign matrix has the same length as the
adjacency matrix, hence `n * n` whenever the adjacency has length `n * n`. -/
theorem c7_sign_matrix_derivation (p : TriadCounterPlugin) (v : FVal) :
    p.compute_signs.signs.length = p.adj.length ∧
    (p.adj.length = p.n * p.n → p.compute_signs.signs.length = p.n * p.n) ∧
    (∀ i : ℕ, p.compute_signs.signs.getD i 0 =
      to_sign (p.adj.getD i (FVal.fin 0))) ∧
    (v.gt0 = true → to_sign v = 1) ∧
    (v.lt0 = true → to_sign v = -1) ∧
    (v.eq0 = true → to_sign v = 0) := by
  refine ⟨?_, ?_, ?_, to_sign_gt0 v, to_sign_lt0 v, to_sign_eq0 v⟩
  · simp [TriadCounterPlugin.compute_signs]
  · intro h
    simp [TriadCounterPlugin.compute_signs, h]
  · intro i
    exact getD_map_to_sign p.adj i

theorem c7_sign_matrix_derivation_witness :
    ((TriadCounterPlugin.mk [.fin 1, .fin (-2), .nan, .fin 0] [] 2 [] tri0).adj.length =
        (TriadCounterPlugin.mk [.fin 1, .fin (-2), .nan, .fin 0] [] 2 [] tri0).n *
          (TriadCounterPlugin.mk [.fin 1, .fin (-2), .nan, .fin 0] [] 2 [] tri0).n ∧
      (TriadCounterPlugin.mk [.fin 1, .fin (-2), .nan, .fin 0] [] 2 [] tri0).compute_signs.signs.length =
        (TriadCounterPlugin.mk [.fin 1, .fin (-2), .nan, .fin 0] [] 2 [] tri0).n *
          (TriadCounterPlugin.mk [.fin 1, .fin (-2), .nan, .fin 0] [] 2 [] tri0).n) ∧
    ((FVal.fin (-2)).lt0 = true ∧ to_sign (.fin (-2)) = -1) :=
  ⟨⟨by decide,
      (c7_sign_matrix_derivation
        (TriadCounterPlugin.mk [.fin 1, .fin (-2), .nan, .fin 0] [] 2 [] tri0)
        (.fin (-2))).2.1 (by decide)⟩,
    ⟨by decide,
      (c7_sign_matrix_derivation
        (TriadCounterPlugin.mk [.fin 1, .fin (-2), .nan, .fin 0] [] 2 [] tri0)
        (.fin (-2))).2.2.2.2.1 (by decide)⟩⟩

/-- C3 (amended): `input` never touches the stored counts: after a load the
counts field is exactly what it was before, so it is all-zero only for an
engine whose counts were already all-zero (e.g. one that never ran); a
reload after `run` keeps the stale counts rather than discarding them. -/
theorem c3_input_preserves_counts (p : TriadCounterPlugin)
    (headers : List String) (records : List (List FVal)) :
    (p.input headers records).counts = p.counts ∧
    (p.counts = tri0 → (p.input headers records).counts = tri0) :=
  ⟨rfl, fun h => h ▸ rfl⟩

theorem c3_input_preserves_counts_witness :
    ((TriadCounterPlugin.mk [] [] 0 [] tri0).input ["", "A", "B"]
        [[.fin 0, .fin 0, .fin 1], [.fin 0, .fin 1, .fin 0]]).counts = tri0 ∧
    (TriadCounterPlugin.mk [] [] 0 [] tri0).counts = tri0 :=
  ⟨(c3_input_preserves_counts (TriadCounterPlugin.mk [] [] 0 [] tri0)
      ["", "A", "B"] [[.fin 0, .fin 0, .fin 1], [.fin 0, .fin 1, .fin 0]]).2 rfl,
    rfl⟩

/-- C3 counterexample: loading into an engine whose stored counts are
non-zero leaves those counts in place — the claim that a successful load
always resets the stored `TriadCounts` to all-zero is false. -/
theorem c3_input_counterexample :
    ((TriadCounterPlugin.mk [] [] 0 [] ⟨1, 0, 0, 0⟩).input ["", "A", "B"]
      [[.fin 0, .fin 0, .fin 1], [.fin 0, .fin 1, .fin 0]]).counts ≠ tri0 := by
  decide

/-! Diagonal invariant of the two constructors. -/

lemma rowmajor_inj (n i j a b : ℕ) (hj : j < n) (hb : b < n)
    (h : i * n + j = a * n + b) : i = a ∧ j = b := by
  have hn : 0 < n := by omega
  have hi : (i * n + j) / n = i := by
    rw [Nat.add_comm, Nat.add_mul_div_right _ _ hn, Nat.div_eq_of_lt hj,
      Nat.zero_add]
  have ha : (a * n + b) / n = a := by
    rw [Nat.add_comm, Nat.add_mul_div_right _ _ hn, Nat.div_eq_of_lt hb,
      Nat.zero_add]
  have hia : i = a := by rw [← hi, ← ha, h]
  subst hia
  exact ⟨rfl, by omega⟩

lemma getD_set_same_default (l : List FVal) (m : ℕ) :
    (l.set m (FVal.fin 0)).getD m (FVal.fin 0) = FVal.fin 0 := by
  rcases Nat.lt_or_ge m l.length with h | h
  · rw [List.getD_eq_getElem?_getD, List.getElem?_set_self (by simpa using h)]
    rfl
  · rw [List.getD_eq_default _ _ (by simpa using h)]

lemma getD_set_other (l : List FVal) (m m' : ℕ) (v : FVal) (h : m ≠ m') :
    (l.set m v).getD m' (FVal.fin 0) = l.getD m' (FVal.fin 0) := by
  rw [List.getD_eq_getElem?_getD, List.getElem?_set_ne h,
    ← List.getD_eq_getElem?_getD]

lemma diag_fold_aux (n d : ℕ) : ∀ (l : List ℕ) (adj : List FVal),
    (d ∈ l ∨ adj.getD (d * n + d) (FVal.fin 0) = FVal.fin 0) →
    ((l.foldl (fun a i => a.set (i * n + i) (FVal.fin 0)) adj).getD
      (d * n + d) (FVal.fin 0) = FVal.fin 0) := by
  intro l
  induction l with
  | nil =>
    intro adj h
    rcases h with h | h
    · exact absurd h (List.not_mem_nil d)
    · exact h
  | cons x l ih =>
    intro adj h
    rw [List.foldl_cons]
    apply ih
    by_cases hx : x = d
    · subst hx
      exact Or.inr (getD_set_same_default adj _)
    · rcases h with h | h
      · rcases List.mem_cons.mp h with h' | h'
        · exact absurd h'.symm hx
        · exact Or.inl h'
      · refine Or.inr ?_
        rw [getD_set_other]
        · exact h
        · intro he
          apply hx
          have hx1 : x * n + x = x * (n + 1) := by ring
          have hd1 : d * n + d = d * (n + 1) := by ring
          rw [hx1, hd1] at he
          exact Nat.eq_of_mul_eq_mul_right (by omega) he

lemma input_diag_zero (p : TriadCounterPlugin) (headers : List String)
    (records : List (List FVal)) (i : ℕ)
    (hi : i < (p.input headers records).n) :
    sgnAt (p.input headers records).signs
      (i * (p.input headers records).n + i) = 0 := by
  have hi2 : i < (headers.drop 1).length := hi
  unfold TriadCounterPlugin.input sgnAt
  simp only
  rw [getD_map_to_sign, diag_fold_aux _ i _ _ (Or.inl (List.mem_range.mpr hi2))]
  rfl

lemma foldl_preserve_mem {α β : Type} (P : α → Prop) (f : α → β → α) :
    ∀ (l : List β), (∀ a b, b ∈ l → P a → P (f a b)) →
      ∀ a, P a → P (l.foldl f a) := by
  intro l
  induction l with
  | nil => intro _ a h; exact h
  | cons x l ih =>
    intro hstep a h
    rw [List.foldl_cons]
    exact ih (fun a' b hb => hstep a' b (by simp [hb])) _
      (hstep a x (by simp) h)

lemma fromMatrixWriteRow_diag (n i d : ℕ) (hd : d < n) (row : List FVal)
    (hrow : row.length ≤ n) (adj : List FVal)
    (h : adj.getD (d * n + d) (FVal.fin 0) = FVal.fin 0) :
    (fromMatrixWriteRow n i adj row).getD (d * n + d) (FVal.fin 0) =
      FVal.fin 0 := by
  unfold fromMatrixWriteRow
  refine foldl_preserve_mem
    (fun a => a.getD (d * n + d) (FVal.fin 0) = FVal.fin 0) _ _
    (fun a jv hjv ha => ?_) adj h
  by_cases hij : i ≠ jv.1
  · show (if i ≠ jv.1 then a.set (i * n + jv.1) jv.2 else a).getD
      (d * n + d) (FVal.fin 0) = FVal.fin 0
    rw [if_pos hij]
    have hjn : jv.1 < n := by
      obtain ⟨j, v⟩ := jv
      have := (List.mem_enum hjv).1
      omega
    rw [getD_set_other]
    · exact ha
    · intro he
      obtain ⟨h1, h2⟩ := rowmajor_inj n i jv.1 d d hjn hd he
      exact hij (by omega)
  · show (if i ≠ jv.1 then a.set (i * n + jv.1) jv.2 else a).getD
      (d * n + d) (FVal.fin 0) = FVal.fin 0
    rw [if_neg hij]
    exact ha

lemma from_matrix_diag_zero (matrix : List (List FVal))
    (hrows : ∀ row ∈ matrix, row.length ≤ matrix.length) (i : ℕ)
    (hi : i < (from_matrix matrix).n) :
    sgnAt (from_matrix matrix).signs
      (i * (from_matrix matrix).n + i) = 0 := by
  unfold from_matrix sgnAt
  simp only
  rw [getD_map_to_sign]
  have hinit : (List.replicate (matrix.length * matrix.length)
      (FVal.fin 0)).getD (i * matrix.length + i) (FVal.fin 0) = FVal.fin 0 := by
    rw [List.getD_eq_getElem?_getD, List.getElem?_replicate]
    split <;> rfl
  have hfold := foldl_preserve_mem
    (fun a : List FVal =>
      a.getD (i * matrix.length + i) (FVal.fin 0) = FVal.fin 0)
    (fun a ir => fromMatrixWriteRow matrix.length ir.1 a ir.2)
    matrix.enum
    (fun a ir hir ha => by
      obtain ⟨r, row⟩ := ir
      have hrow : row ∈ matrix := by
        have := List.mem_enum hir
        rw [this.2]
        exact List.getElem_mem _
      exact fromMatrixWriteRow_diag matrix.length r i
        (by simpa using hi) row (hrows row hrow) a ha)
    _ hinit
  rw [hfold]
  rfl

/-- C8 (amended): after a successful `input`, and after `from_matrix` on a
matrix none of whose rows is longer than the matrix itself (in particular
any square matrix), every diagonal sign `signs[i*n+i]` is `0`, whatever the
supplied diagonal values were.  For `from_matrix`, a row longer than `n` can
write a later row's cells — including a diagonal cell — so the unrestricted
claim is refuted by `c8_diag_zero_counterexample`. -/
theorem c8_diag_zero (p : TriadCounterPlugin) (headers : List String)
    (records : List (List FVal)) (matrix : List (List FVal))
    (hrows : ∀ row ∈ matrix, row.length ≤ matrix.length) (i : ℕ) :
    (i < (p.input headers records).n →
      sgnAt (p.input headers records).signs
        (i * (p.input headers records).n + i) = 0) ∧
    (i < (from_matrix matrix).n →
      sgnAt (from_matrix matrix).signs
        (i * (from_matrix matrix).n + i) = 0) :=
  ⟨input_diag_zero p headers records i,
    from_matrix_diag_zero matrix hrows i⟩

theorem c8_diag_zero_witness :
    ((1 : ℕ) < ((TriadCounterPlugin.mk [] [] 0 [] tri0).input ["", "A", "B"]
        [[.fin 0, .fin 7, .fin 1], [.fin 0, .fin 1, .fin 9]]).n ∧
      sgnAt ((TriadCounterPlugin.mk [] [] 0 [] tri0).input ["", "A", "B"]
          [[.fin 0, .fin 7, .fin 1], [.fin 0, .fin 1, .fin 9]]).signs
        (1 * ((TriadCounterPlugin.mk [] [] 0 [] tri0).input ["", "A", "B"]
          [[.fin 0, .fin 7, .fin 1], [.fin 0, .fin 1, .fin 9]]).n + 1) = 0) ∧
    ((∀ row ∈ [[FVal.fin 5, .fin 1], [.fin 1, .fin 5]],
        row.length ≤ ([[FVal.fin 5, .fin 1], [.fin 1, .fin 5]] : List (List FVal)).length) ∧
      (1 < (from_matrix [[FVal.fin 5, .fin 1], [.fin 1, .fin 5]]).n →
        sgnAt (from_matrix [[FVal.fin 5, .fin 1], [.fin 1, .fin 5]]).signs
          (1 * (from_matrix [[FVal.fin 5, .fin 1], [.fin 1, .fin 5]]).n + 1) = 0)) :=
  ⟨⟨by decide,
      (c8_diag_zero (TriadCounterPlugin.mk [] [] 0 [] tri0) ["", "A", "B"]
        [[.fin 0, .fin 7, .fin 1], [.fin 0, .fin 1, .fin 9]]
        [[.fin 5, .fin 1], [.fin 1, .fin 5]] (by decide) 1).1 (by decide)⟩,
    ⟨by decide,
      (c8_diag_zero (TriadCounterPlugin.mk [] [] 0 [] tri0) ["", "A", "B"]
        [[.fin 0, .fin 7, .fin 1], [.fin 0, .fin 1, .fin 9]]
        [[.fin 5, .fin 1], [.fin 1, .fin 5]] (by decide) 1).2⟩⟩

/-- C8 counterexample: `from_matrix` with a first row of length 4 in a
2-node matrix writes its surplus cells into the second row's storage — the
cell at flat index 3, which is the diagonal `(1,1)` — so the constructed
engine has a non-zero diagonal sign and the unrestricted claim is false. -/
theorem c8_diag_zero_counterexample :
    (from_matrix [[.fin 0, .fin 1, .fin 9, .fin 7], [.fin 1, .fin 0]]).n = 2 ∧
    sgnAt (from_matrix
        [[.fin 0, .fin 1, .fin 9, .fin 7], [.fin 1, .fin 0]]).signs
      (1 * 2 + 1) ≠ 0 := by
  decide

/-! Safety: every index the counting loops compute is in bounds. -/

lemma get?_eq_some_getD (s : List Int) (i : ℕ) (h : i < s.length) :
    s[i]? = some (s.getD i 0) := by
  rw [List.getElem?_eq_getElem h, List.getD_eq_getElem _ _ h]

lemma idx_lt (n a b : ℕ) (ha : a < n) (hb : b < n) : a * n + b < n * n := by
  have h1 : a * n + b < (a + 1) * n := by
    have : (a + 1) * n = a * n + n := by ring
    omega
  have h2 : (a + 1) * n ≤ n * n := Nat.mul_le_mul_right n (by omega)
  omega

lemma innerKChecked_eq (s : List Int) (n i j : ℕ) (ij : Int)
    (hlen : s.length = n * n) (hi : i < n) (hj : j < n) (acc : TriadCounts) :
    innerKChecked s n i j ij acc = some (innerK s n i j ij acc) := by
  unfold innerKChecked innerK
  have haux : ∀ (l : List ℕ), (∀ k ∈ l, k < n) → ∀ a : TriadCounts,
      l.foldlM (fun c k => do
        let ik ← s[i * n + k]?
        let jk ← s[j * n + k]?
        pure (if ik = 0 ∨ jk = 0 then c else bump c (posCount ij ik jk))) a =
      some (l.foldl (fun c k =>
        let ik := sgnAt s (i * n + k)
        let jk := sgnAt s (j * n + k)
        if ik = 0 ∨ jk = 0 then c else bump c (posCount ij ik jk)) a) := by
    intro l
    induction l with
    | nil => intro _ a; rfl
    | cons k l ih =>
      intro hmem a
      have hk : k < n := hmem k (by simp)
      have h1 := get?_eq_some_getD s (i * n + k)
        (by rw [hlen]; exact idx_lt n i k hi hk)
      have h2 := get?_eq_some_getD s (j * n + k)
        (by rw [hlen]; exact idx_lt n j k hj hk)
      have ih2 := ih (fun x hx => hmem x (List.mem_cons_of_mem _ hx))
      rw [List.foldlM_cons, List.foldl_cons]
      simp only [h1, h2, Option.bind_eq_bind, Option.some_bind,
        Option.pure_def, sgnAt]
      exact ih2 _
  refine haux _ (fun k hk => ?_) acc
  have := List.mem_range'_1.mp hk
  omega

lemma rowStepChecked_eq (s : List Int) (n : ℕ) (hlen : s.length = n * n)
    (i : ℕ) (hi : i < n) (acc : TriadCounts) :
    rowStepChecked s n acc i = some (rowStep s n acc i) := by
  unfold rowStepChecked rowStep
  have haux : ∀ (l : List ℕ), (∀ j ∈ l, j < n) → ∀ a : TriadCounts,
      l.foldlM (fun c j => do
        let ij ← s[i * n + j]?
        if ij = 0 then pure c else innerKChecked s n i j ij c) a =
      some (l.foldl (fun c j =>
        let ij := sgnAt s (i * n + j)
        if ij = 0 then c else innerK s n i j ij c) a) := by
    intro l
    induction l with
    | nil => intro _ a; rfl
    | cons j l ih =>
      intro hmem a
      have hj : j < n := hmem j (by simp)
      have h1 := get?_eq_some_getD s (i * n + j)
        (by rw [hlen]; exact idx_lt n i j hi hj)
      have hIK : ∀ c, innerKChecked s n i j (sgnAt s (i * n + j)) c =
          some (innerK s n i j (sgnAt s (i * n + j)) c) :=
        fun c => innerKChecked_eq s n i j _ hlen hi hj c
      have ih2 := ih (fun x hx => hmem x (List.mem_cons_of_mem _ hx))
      rw [List.foldlM_cons, List.foldl_cons]
      simp only [h1, Option.bind_eq_bind, Option.some_bind, Option.pure_def]
      by_cases hz : sgnAt s (i * n + j) = 0
      · rw [show s.getD (i * n + j) 0 = sgnAt s (i * n + j) from rfl, if_pos hz,
          if_pos hz]
        exact ih2 _
      · rw [show s.getD (i * n + j) 0 = sgnAt s (i * n + j) from rfl,
          if_neg hz, if_neg hz, hIK]
        simp only [Option.some_bind]
        exact ih2 _
  refine haux _ (fun j hj => ?_) acc
  have := List.mem_range'_1.mp hj
  omega

lemma seqChecked_eq (p : TriadCounterPlugin)
    (hlen : p.signs.length = p.n * p.n) :
    count_triads_sequential_checked p = some (count_triads_sequential p) := by
  unfold count_triads_sequential_checked count_triads_sequential
  have haux : ∀ (l : List ℕ), (∀ i ∈ l, i < p.n) → ∀ a : TriadCounts,
      l.foldlM (rowStepChecked p.signs p.n) a =
        some (l.foldl (rowStep p.signs p.n) a) := by
    intro l
    induction l with
    | nil => intro _ a; rfl
    | cons i l ih =>
      intro hmem a
      have h1 := rowStepChecked_eq p.signs p.n hlen i (hmem i (by simp))
      have ih2 := ih (fun x hx => hmem x (List.mem_cons_of_mem _ hx))
      rw [List.foldlM_cons, List.foldl_cons, h1]
      simp only [Option.bind_eq_bind, Option.some_bind]
      exact ih2 _
  exact haux _ (fun i hi => List.mem_range.mp hi) tri0

lemma parChecked_eq (p : TriadCounterPlugin)
    (hlen : p.signs.length = p.n * p.n) :
    count_triads_parallel_chunked_checked p =
      some (count_triads_parallel_chunked p) := by
  unfold count_triads_parallel_chunked_checked count_triads_parallel_chunked
    parChunksCounts
  rw [List.foldl_map, List.foldl_map]
  have haux : ∀ (l : List ℕ), (∀ i ∈ l, i < p.n) → ∀ a : TriadCounts,
      (l.map (fun i => [i])).foldlM (fun acc chunk => do
        let c ← chunk.foldlM (rowStepChecked p.signs p.n) tri0
        pure (acc.merge c)) a =
      some (l.foldl (fun acc i => acc.merge (chunkCounts p.signs p.n [i])) a) := by
    intro l
    induction l with
    | nil => intro _ a; rfl
    | cons i l ih =>
      intro hmem a
      rw [List.map_cons, List.foldlM_cons, List.foldl_cons]
      have hone : ([i].foldlM (rowStepChecked p.signs p.n) tri0) =
          some (chunkCounts p.signs p.n [i]) := by
        unfold chunkCounts
        rw [List.foldlM_cons, rowStepChecked_eq p.signs p.n hlen i
          (hmem i (by simp))]
        rfl
      have ih2 := ih (fun x hx => hmem x (List.mem_cons_of_mem _ hx))
      rw [hone]
      simp only [Option.bind_eq_bind, Option.some_bind, Option.pure_def]
      exact ih2 _
  exact haux _ (fun i hi => List.mem_range.mp hi) tri0

/-- C9: under the shape invariant `signs.len() == n * n`, every index
`i*n+j`, `i*n+k`, `j*n+k` the two counting loops read (for
`i < j < k < n`) is in bounds, so the checked counters — which return
`none` exactly where Rust indexing would panic — succeed and return the
results of the total functions: the counting operations never fail. -/
theorem c9_counting_never_panics (p : TriadCounterPlugin)
    (hlen : p.signs.length = p.n * p.n) :
    count_triads_sequential_checked p = some (count_triads_sequential p) ∧
    count_triads_parallel_chunked_checked p =
      some (count_triads_parallel_chunked p) :=
  ⟨seqChecked_eq p hlen, parChecked_eq p hlen⟩

theorem c9_counting_never_panics_witness :
    (TriadCounterPlugin.mk [] [1, 1, -1, 0, 0, 1, 1, -1, 0] 3 [] tri0).signs.length =
      (TriadCounterPlugin.mk [] [1, 1, -1, 0, 0, 1, 1, -1, 0] 3 [] tri0).n *
        (TriadCounterPlugin.mk [] [1, 1, -1, 0, 0, 1, 1, -1, 0] 3 [] tri0).n ∧
    (count_triads_sequential_checked
        (TriadCounterPlugin.mk [] [1, 1, -1, 0, 0, 1, 1, -1, 0] 3 [] tri0) =
      some (count_triads_sequential
        (TriadCounterPlugin.mk [] [1, 1, -1, 0, 0, 1, 1, -1, 0] 3 [] tri0)) ∧
      count_triads_parallel_chunked_checked
        (TriadCounterPlugin.mk [] [1, 1, -1, 0, 0, 1, 1, -1, 0] 3 [] tri0) =
        some (count_triads_parallel_chunked
          (TriadCounterPlugin.mk [] [1, 1, -1, 0, 0, 1, 1, -1, 0] 3 [] tri0))) :=
  ⟨by decide,
    c9_counting_never_panics
      (TriadCounterPlugin.mk [] [1, 1, -1, 0, 0, 1, 1, -1, 0] 3 [] tri0)
      (by decide)⟩

/-! NaN edge weights are treated as absent edges. -/

lemma listSum_eq_of_perm (l₁ l₂ : List TriadCounts) (h : l₁.Perm l₂) :
    listSum l₁ = listSum l₂ := by
  refine triadCounts_ext _ _ ?_ ?_ ?_ ?_
  · rw [listSum_proj (fun c => c.three_positive) rfl (fun a b => rfl),
      listSum_proj (fun c => c.three_positive) rfl (fun a b => rfl)]
    exact (h.map _).sum_eq
  · rw [listSum_proj (fun c => c.two_positive) rfl (fun a b => rfl),
      listSum_proj (fun c => c.two_positive) rfl (fun a b => rfl)]
    exact (h.map _).sum_eq
  · rw [listSum_proj (fun c => c.one_positive) rfl (fun a b => rfl),
      listSum_proj (fun c => c.one_positive) rfl (fun a b => rfl)]
    exact (h.map _).sum_eq
  · rw [listSum_proj (fun c => c.zero_positive) rfl (fun a b => rfl),
      listSum_proj (fun c => c.zero_positive) rfl (fun a b => rfl)]
    exact (h.map _).sum_eq

/-- C10: a NaN edge weight is signed `0` — both `v > 0.0` and `v < 0.0` are
false for NaN — so for an engine whose signs derive from its adjacency
matrix, a pair `(a, b)` with a NaN weight contributes nothing: every triple
that reads the pair contributes to no bucket, and the whole count equals
the count over only the triples that avoid the pair. -/
theorem c10_nan_treated_as_absent (p : TriadCounterPlugin) (a b : ℕ)
    (hsig : p.signs = p.adj.map to_sign)
    (h : p.adj.getD (a * p.n + b) (FVal.fin 0) = FVal.nan) :
    to_sign FVal.nan = 0 ∧
    (∀ t, pairIn a b t → tdelta p.signs p.n t = tri0) ∧
    count_triads_sequential p =
      listSum (((triples p.n).filter
        (fun t => decide (¬ pairIn a b t))).map (tdelta p.signs p.n)) := by
  have hz : sgnAt p.signs (a * p.n + b) = 0 := by
    rw [hsig]
    unfold sgnAt
    rw [getD_map_to_sign, h]
    rfl
  have hdel : ∀ t, pairIn a b t → tdelta p.signs p.n t = tri0 := by
    rintro ⟨i, j, k⟩ hp
    rcases hp with ⟨h1, h2⟩ | ⟨h1, h2⟩ | ⟨h1, h2⟩ <;>
      simp only at h1 h2 <;> subst h1 <;> subst h2
    · unfold tdelta
      rw [if_pos hz]
    · unfold tdelta
      by_cases hij : sgnAt p.signs (i * p.n + j) = 0
      · rw [if_pos hij]
      · rw [if_neg hij, if_pos (Or.inl hz)]
    · unfold tdelta
      by_cases hij : sgnAt p.signs (i * p.n + j) = 0
      · rw [if_pos hij]
      · rw [if_neg hij, if_pos (Or.inr hz)]
  refine ⟨rfl, hdel, ?_⟩
  have hperm : ((triples p.n).filter (fun t => decide (pairIn a b t)) ++
      (triples p.n).filter (fun t => !decide (pairIn a b t))).Perm
      (triples p.n) :=
    List.filter_append_perm _ _
  rw [seq_eq_listSum_tdelta,
    listSum_eq_of_perm _ _ ((hperm.map (tdelta p.signs p.n)).symm),
    List.map_append, listSum_append,
    listSum_map_tri0 _ _ (fun t ht => hdel t (by
      have := List.mem_filter.mp ht
      exact of_decide_eq_true this.2)),
    tri0_merge]
  congr 2
  refine List.filter_congr (fun t _ => ?_)
  rw [decide_not]

theorem c10_nan_treated_as_absent_witness :
    ((from_matrix [[.fin 0, .nan, .fin 1], [.nan, .fin 0, .fin 1],
        [.fin 1, .fin 1, .fin 0]]).signs =
      (from_matrix [[.fin 0, .nan, .fin 1], [.nan, .fin 0, .fin 1],
        [.fin 1, .fin 1, .fin 0]]).adj.map to_sign ∧
      (from_matrix [[.fin 0, .nan, .fin 1], [.nan, .fin 0, .fin 1],
        [.fin 1, .fin 1, .fin 0]]).adj.getD
        (0 * (from_matrix [[.fin 0, .nan, .fin 1], [.nan, .fin 0, .fin 1],
          [.fin 1, .fin 1, .fin 0]]).n + 1) (FVal.fin 0) = FVal.nan) ∧
    (to_sign FVal.nan = 0 ∧
      count_triads_sequential (from_matrix
        [[.fin 0, .nan, .fin 1], [.nan, .fin 0, .fin 1],
         [.fin 1, .fin 1, .fin 0]]) =
      listSum (((triples (from_matrix [[.fin 0, .nan, .fin 1],
          [.nan, .fin 0, .fin 1], [.fin 1, .fin 1, .fin 0]]).n).filter
        (fun t => decide (¬ pairIn 0 1 t))).map
        (tdelta (from_matrix [[.fin 0, .nan, .fin 1], [.nan, .fin 0, .fin 1],
          [.fin 1, .fin 1, .fin 0]]).signs
          (from_matrix [[.fin 0, .nan, .fin 1], [.nan, .fin 0, .fin 1],
            [.fin 1, .fin 1, .fin 0]]).n))) :=
  ⟨⟨by decide, by decide⟩,
    ⟨(c10_nan_treated_as_absent (from_matrix
        [[.fin 0, .nan, .fin 1], [.nan, .fin 0, .fin 1],
         [.fin 1, .fin 1, .fin 0]]) 0 1 (by decide) (by decide)).1,
      (c10_nan_treated_as_absent (from_matrix
        [[.fin 0, .nan, .fin 1], [.nan, .fin 0, .fin 1],
         [.fin 1, .fin 1, .fin 0]]) 0 1 (by decide) (by decide)).2.2⟩⟩

theorem c5_total_le_choose_witness :
    (count_triads_sequential (from_matrix
      [[.fin 0, .fin 1, .fin 1], [.fin 1, .fin 0, .fin 1],
       [.fin 1, .fin 1, .fin 0]])).total ≤ 3 * (3 - 1) * (3 - 2) / 6 :=
  (c5_total_le_choose (from_matrix
    [[.fin 0, .fin 1, .fin 1], [.fin 1, .fin 0, .fin 1],
     [.fin 1, .fin 1, .fin 0]])).1
